import Mathlib

/-!
# threadpool.cpp : safe_queue and ThreadPool

A shallow embedding of `src/threadpool.cpp`.

* `safe_queue<T>` wraps a `std::queue<T>`; every member function runs under the
  queue's own `shared_mutex`, so each call is one atomic step on the contents.
  The contents are a list, front first.
* `ThreadPool` is embedded as an interleaving transition system: the owner
  thread (constructor, destructor), the callers of `submit` and every worker
  thread advance by atomic steps, each step touching the shared data at most
  once, and the steps of different threads interleave in any order. Reads and
  writes of the shared data are taken to be sequentially consistent.
* Values of every type are elements of one type `V`, failures (exceptions)
  elements of one type `E`. A callable is its call operator together with the
  callable object in the memory of the caller; a call of it is a function of
  the object and the arguments and does not touch the pool. The memory of the
  callers is a parameter of a run.
* The standard library is embedded by its documented behaviour:
  `std::packaged_task` stores the result or the exception of its function in
  the shared state of its future, `future::get` blocks until then, and
  `condition_variable::wait(lock, pred)` returns only when `pred` holds.
-/

namespace ThreadPoolSpec

/-! ## safe_queue (threadpool.cpp, lines 28-81) -/

/-- The struct `safe_queue<T>`: the member `que`, front of the queue first.
The member `_m` only serialises the member functions. -/
structure safe_queue (T : Type) where
  que : List T

namespace safe_queue

variable {T : Type}

/-- A default constructed queue. -/
def init : safe_queue T := ⟨[]⟩

/-- Member `empty()`: `return que.empty();`. -/
def empty (q : safe_queue T) : Bool := q.que.isEmpty

/-- Member `size()`: `return que.size();`. -/
def size (q : safe_queue T) : Nat := q.que.length

/-- Member `push(T& t)`: `que.push(t);` appends a copy of `t` at the back. -/
def push (q : safe_queue T) (t : T) : safe_queue T := ⟨q.que ++ [t]⟩

/-- Member `pop(T& t)`: the result is the returned flag, the value of the
reference parameter `t` after the call, and the queue after the call.
`if (que.empty()) return false; t = move(que.front()); que.pop(); return true;` -/
def pop (q : safe_queue T) (t : T) : Bool × T × safe_queue T :=
  match q.que with
  | [] => (false, t, q)
  | x :: rest => (true, x, ⟨rest⟩)

/-- A caller that pushes the items of `xs` one after the other. -/
def pushAll (q : safe_queue T) : List T → safe_queue T
  | [] => q
  | x :: xs => pushAll (q.push x) xs

/-- A caller that calls `pop` `n` times in a row on the same variable `t` and
records, in call order, the value received by every call that returned true. -/
def popMany : Nat → safe_queue T → T → List T
  | 0, _, _ => []
  | n + 1, q, t =>
    match q.pop t with
    | (true, t1, q1) => t1 :: popMany n q1 t1
    | (false, t1, q1) => popMany n q1 t1

/-- One call made by a client of the queue. -/
inductive Op (T : Type) where
  | push (t : T)
  | pop

/-- Bookkeeping of a client: the queue, the number of `push` calls made and the
number of `pop` calls that returned true. -/
structure Tally (T : Type) where
  q : safe_queue T
  pushes : Nat
  pops : Nat

/-- Apply one client call to the queue and count it. The value handed to `pop`
as output variable is the item `t0`. -/
def Tally.apply (t0 : T) (c : Tally T) : Op T → Tally T
  | .push t => ⟨c.q.push t, c.pushes + 1, c.pops⟩
  | .pop =>
    match c.q.pop t0 with
    | (true, _, q1) => ⟨q1, c.pushes, c.pops + 1⟩
    | (false, _, q1) => ⟨q1, c.pushes, c.pops⟩

/-- Apply a sequence of client calls to an initially empty queue. -/
def Tally.run (t0 : T) (ops : List (Op T)) : Tally T :=
  ops.foldl (Tally.apply t0) ⟨init, 0, 0⟩

/-- A record of a client: the queue, the items pushed so far in push order,
and the items received by the `pop` calls that returned true, in call order. -/
structure Log (T : Type) where
  q : safe_queue T
  pushed : List T
  popped : List T

/-- Apply one client call to the queue and record it. The value handed to
`pop` as output variable is the item `t0`. -/
def Log.apply (t0 : T) (c : Log T) : Op T → Log T
  | .push t => ⟨c.q.push t, c.pushed ++ [t], c.popped⟩
  | .pop =>
    match c.q.pop t0 with
    | (true, x, q1) => ⟨q1, c.pushed, c.popped ++ [x]⟩
    | (false, _, q1) => ⟨q1, c.pushed, c.popped⟩

/-- Record a sequence of client calls on an initially empty queue. -/
def Log.run (t0 : T) (ops : List (Op T)) : Log T :=
  ops.foldl (Log.apply t0) ⟨init, [], []⟩

end safe_queue

/-! ## Futures, bound callables and packaged tasks (lines 159-172) -/

/-- The shared state that a `std::packaged_task` writes and the `std::future`
obtained from it reads: not yet written, a value, or a captured exception. -/
inductive Shared (V E : Type) where
  | pending
  | ready (v : V)
  | failed (e : E)

/-- The blocking read `future::get()`: `none` while it blocks, afterwards the
stored value, or the stored exception thrown again. -/
def Shared.get {V E : Type} : Shared V E → Option (Except E V)
  | .pending => none
  | .ready v => some (.ok v)
  | .failed e => some (.error e)

/-- The objects of the callers of `submit`, by address. `submit` receives its
callable as a reference `F&& f`, an address in this memory. -/
abbrev Memory (V : Type) := Nat → V

/-- The closure `[&f, args...]() { return f(args...); }` of line 162.
`code` is the call operator of the callable's type `F`, fixed when `submit` is
instantiated; it takes the callable object and the arguments. `f` is the
captured reference, the address of the caller's callable object. `args` are
the captured copies of the arguments. -/
structure Bound (V E : Type) where
  code : V → List V → Except E V
  f : Nat
  args : List V

/-- Calling the closure: `f(args...)` reads the callable object through the
captured reference at the time of the call. -/
def Bound.call {V E : Type} (mem : Memory V) (b : Bound V E) : Except E V :=
  b.code (mem b.f) b.args

/-- What a `packaged_task` stores in its shared state after running its stored
function: the returned value, or the exception that the function threw. -/
def outcome {V E : Type} : Except E V → Shared V E
  | .ok v => .ready v
  | .error e => .failed e

/-- The object built by `std::make_shared<std::packaged_task<...>>(func)` on
line 164: the stored function and the shared state of its future. -/
structure packaged_task (V E : Type) where
  func : Bound V E
  state : Shared V E

/-- Calling a `std::function<void()>` taken from the task queue, over the
heap of packaged tasks. The function object is either empty (`none`) or the
closure `[task_ptr]() { (*task_ptr)(); }` of line 166, which holds `task_ptr`
(`some p`). The result is the heap after the call; `none` when the call throws:
`bad_function_call` for the empty function, `future_error` when the packaged
task has run before. An exception of the stored function itself is not thrown
on: the packaged task stores it in the shared state. -/
def invoke {V E : Type} (mem : Memory V) (heap : List (packaged_task V E)) :
    Option Nat → Option (List (packaged_task V E))
  | none => none
  | some p =>
    match heap[p]? with
    | none => none
    | some pt =>
      match pt.state with
      | .pending => some (heap.set p { pt with state := outcome (pt.func.call mem) })
      | _ => none

/-! ## ThreadPool (lines 90-186) -/

/-- Where a worker thread stands in `worker::operator()` (lines 107-125). -/
inductive WorkerPc where
  /-- About to evaluate the loop condition `!pool->is_shut_down` (line 109). -/
  | loopTop
  /-- Inside `pool->cv.wait(lock, pred)` (lines 112-117). -/
  | waiting
  /-- About to call `pool->que.pop(func)` on a fresh, empty `func` (line 120). -/
  | popping
  /-- After a pop that returned true, about to call `func()` (line 122). -/
  | running (func : Option Nat)
  /-- The loop was left and `operator()` returned. -/
  | exited
  /-- An exception left `operator()`: the process is terminated. -/
  | aborted
  deriving DecidableEq

/-- The task that a worker holds: the `task_ptr` inside the function object
it popped and has not finished calling. -/
def WorkerPc.task : WorkerPc → List Nat
  | .running (some p) => [p]
  | _ => []

/-- Where the thread that owns the pool stands. The destructor's local
variable `f`, the future of its empty task, is kept from line 178 on. -/
inductive OwnerPc where
  /-- The pool is constructed and its destructor has not been entered. -/
  | live
  /-- At `f.get()` (line 179). -/
  | get (f : Nat)
  /-- At `is_shut_down = true` (line 180). -/
  | setFlag (f : Nat)
  /-- At `cv.notify_all()` (line 181). -/
  | notify (f : Nat)
  /-- In the loop of lines 182-184, about to join `threads[i]`. -/
  | join (f : Nat) (i : Nat)
  /-- The destructor has returned. -/
  | done (f : Nat)
  /-- An exception left the destructor: the process is terminated. -/
  | aborted
  deriving DecidableEq

/-- The destructor's local variable `f`, once line 178 has run. -/
def OwnerPc.future : OwnerPc → Option Nat
  | .live => none
  | .get f => some f
  | .setFlag f => some f
  | .notify f => some f
  | .join f _ => some f
  | .done f => some f
  | .aborted => none

/-- The state of a pool and of the threads around it. `is_shut_down`, `que`
and `threads` are the data members of the class (a thread is represented by
where it stands); the members `_m` and `cv` carry no data. `heap` holds the
packaged tasks allocated by `submit`, addressed by their `task_ptr`. `owner`
is the progress of the owning thread. `executed` is a log of the `task_ptr` of
every call `func()` that a worker has completed, oldest first. -/
structure ThreadPool (V E : Type) where
  is_shut_down : Bool
  que : safe_queue (Option Nat)
  threads : List WorkerPc
  heap : List (packaged_task V E)
  owner : OwnerPc
  executed : List Nat

namespace ThreadPool

variable {V E : Type}

/-- The state right after the constructor `ThreadPool(n)` with `n` threads
(lines 140-142): the flag is false, the queue is empty and every thread is at
the start of `worker::operator()`. -/
def init (n : Nat) : ThreadPool V E :=
  ⟨false, safe_queue.init, List.replicate n .loopTop, [], .live, []⟩

/-- The constructor `ThreadPool(int n)` (lines 140-142). `threads(n)` builds a
vector of `n` threads; a negative `n` converts to a size above the vector's
maximum and the vector's constructor throws (`none`). There is no other test
of `n`. -/
def create (n : Int) : Option (ThreadPool V E) :=
  if n < 0 then none else some (init n.toNat)

/-- The member `submit(f, args...)` (lines 160-172): the state after the call
and the returned future, given as the `task_ptr` whose shared state it reads.
`cv.notify_one()` changes no data. -/
def submit (s : ThreadPool V E) (code : V → List V → Except E V) (f : Nat)
    (args : List V) : ThreadPool V E × Nat :=
  let func : Bound V E := ⟨code, f, args⟩
  let task_ptr : Nat := s.heap.length
  let wrapper_func : Option Nat := some task_ptr
  ({ s with heap := s.heap ++ [⟨func, .pending⟩], que := s.que.push wrapper_func },
    task_ptr)

/-- One atomic step of worker `i` in `worker::operator()` (lines 107-125);
`none` when the thread cannot move (it is blocked in the wait, has left the
loop, or does not exist).

The wait `cv.wait(lock, pred)` returns only after an evaluation of `pred`
that gave true, and a wake-up may happen at any time, so the thread may leave
the wait in any state where `is_shut_down || !que.empty()` holds. -/
def worker.step (mem : Memory V) (s : ThreadPool V E) (i : Nat) :
    Option (ThreadPool V E) :=
  match s.threads[i]? with
  | none => none
  | some .loopTop =>
    if s.is_shut_down then some { s with threads := s.threads.set i .exited }
    else some { s with threads := s.threads.set i .waiting }
  | some .waiting =>
    if s.is_shut_down || !s.que.empty then
      some { s with threads := s.threads.set i .popping }
    else none
  | some .popping =>
    match s.que.pop none with
    | (true, func, q) => some { s with que := q, threads := s.threads.set i (.running func) }
    | (false, _, q) => some { s with que := q, threads := s.threads.set i .loopTop }
  | some (.running func) =>
    match invoke mem s.heap func with
    | some heap1 =>
      some { s with heap := heap1, threads := s.threads.set i .loopTop,
                    executed := s.executed ++ func.toList }
    | none => some { s with threads := s.threads.set i .aborted }
  | some .exited => none
  | some .aborted => none

/-- Worker `i` takes `k` steps in a row, no other thread moving in between. -/
def worker.steps (mem : Memory V) : Nat → ThreadPool V E → Nat → Option (ThreadPool V E)
  | 0, s, _ => some s
  | k + 1, s, i =>
    match worker.step mem s i with
    | none => none
    | some s1 => worker.steps mem k s1 i

/-- The call operator of the empty lambda `[]() {}` that the destructor
submits (line 178): it reads nothing and returns; its `void` result is
represented by the default value. -/
def noop [Inhabited V] : V → List V → Except E V := fun _ _ => .ok default

/-- Entering the destructor (line 178): `auto f = submit([]() {});`. The
callable is a temporary of the destructor; its address is immaterial because
its call operator reads nothing. -/
def destroy [Inhabited V] (s : ThreadPool V E) : Option (ThreadPool V E) :=
  match s.owner with
  | .live =>
    let r := s.submit noop 0 []
    some { r.1 with owner := .get r.2 }
  | _ => none

/-- One atomic step of the destructor after its first line (lines 179-185);
`none` when the owner cannot move (blocked in `f.get()` or in `join`, or not
inside the destructor). -/
def owner.step (s : ThreadPool V E) : Option (ThreadPool V E) :=
  match s.owner with
  | .get f =>
    match s.heap[f]? with
    | none => none
    | some pt =>
      match pt.state.get with
      | none => none
      | some (.ok _) => some { s with owner := .setFlag f }
      | some (.error _) => some { s with owner := .aborted }
  | .setFlag f => some { s with is_shut_down := true, owner := .notify f }
  | .notify f => some { s with owner := .join f 0 }
  | .join f i =>
    match s.threads[i]? with
    | none => some { s with owner := .done f }
    | some .exited => some { s with owner := .join f (i + 1) }
    | some _ => none
  | _ => none

/-- The moves of the system: a thread calls `submit`, the owner enters the
destructor, the destructor advances, or worker `i` advances. -/
inductive Action (V E : Type) where
  | submit (code : V → List V → Except E V) (f : Nat) (args : List V)
  | destroy
  | owner
  | worker (i : Nat)

/-- One move. `submit` may be called, by any thread, as long as the pool
object exists. -/
def step [Inhabited V] (mem : Memory V) (s : ThreadPool V E) :
    Action V E → Option (ThreadPool V E)
  | .submit code f args =>
    match s.owner with
    | .done _ => none
    | .aborted => none
    | _ => some (s.submit code f args).1
  | .destroy => s.destroy
  | .owner => owner.step s
  | .worker i => worker.step mem s i

/-- A sequence of moves; `none` when one of them is not possible. -/
def run [Inhabited V] (mem : Memory V) : List (Action V E) → ThreadPool V E →
    Option (ThreadPool V E)
  | [], s => some s
  | a :: rest, s =>
    match step mem s a with
    | none => none
    | some s1 => run mem rest s1

/-- Whether a move is a call of `submit`. -/
def Action.isSubmit : Action V E → Bool
  | .submit _ _ _ => true
  | _ => false

/-- The tasks that workers have taken from the queue and not finished. -/
def inflight : List WorkerPc → List Nat
  | [] => []
  | w :: ws => w.task ++ inflight ws

/-- The number of tasks that have left the queue. -/
def taken (s : ThreadPool V E) : Nat := s.heap.length - s.que.size

/-- What the owner's position implies. The flag is false until the destructor
has passed line 180; from then on the destructor's empty task has been
executed; the threads already joined have left their loop. -/
def ownerOk (s : ThreadPool V E) : Prop :=
  match s.owner with
  | .live => s.is_shut_down = false
  | .get f => s.is_shut_down = false ∧ f < s.heap.length
  | .setFlag f => s.is_shut_down = false ∧ f ∈ s.executed
  | .notify f => f ∈ s.executed
  | .join f i => f ∈ s.executed ∧ ∀ j, j < i → j < s.threads.length →
      s.threads[j]? = some .exited
  | .done f => f ∈ s.executed ∧ ∀ w ∈ s.threads, w = .exited
  | .aborted => s.is_shut_down = false

/-- The invariant of the reachable states.
* The queue holds, in order, exactly the tasks not yet taken: the `task_ptr`
  values from `taken` up to the size of the heap.
* Every task taken is either in the log of executed tasks or held by a
  worker, exactly once in all; no other task is.
* The shared state of a task is written exactly when the task is in the log,
  and then it holds the outcome of the stored function.
* A worker that has left its loop saw the flag set. -/
structure Inv (mem : Memory V) (s : ThreadPool V E) : Prop where
  size_le : s.que.size ≤ s.heap.length
  que_eq : s.que.que = (List.range' (taken s) s.que.size).map some
  once : ∀ p, s.executed.count p + (inflight s.threads).count p =
    if p < taken s then 1 else 0
  state : ∀ p pt, s.heap[p]? = some pt →
    pt.state = if p ∈ s.executed then outcome (pt.func.call mem) else .pending
  exited : ∀ w ∈ s.threads, w = .exited → s.is_shut_down = true

/-! ## Concrete callables, memories and runs -/

namespace Demo

/-- The caller memory in which every callable object holds `k`. -/
def mem (k : Int) : Memory Int := fun _ => k

/-- The call operator of `[](int x) { return x; }`. -/
def ident : Int → List Int → Except String Int := fun _ args => .ok (args.headD 0)

/-- The call operator of a callable that throws a failure with the message
"boom". -/
def boom : Int → List Int → Except String Int := fun _ _ => .error "boom"

/-- The call operator of `struct Adder { int k; int operator()(int x) { return
x + k; } };`: the callable object is its member `k`. -/
def adder : Int → List Int → Except String Int := fun k args => .ok (args.headD 0 + k)

/-- The state after a run in the memory `mem k`; the start state when the run
is not possible. -/
def after (k : Int) (acts : List (Action Int String)) (s : ThreadPool Int String) :
    ThreadPool Int String :=
  (run (mem k) acts s).getD s

/-- The pool `ThreadPool pool(n);` over these callables. -/
def pool (n : Nat) : ThreadPool Int String := init n

/-- Worker `i` goes once round its loop: loop test, wait, pop, call. -/
def turn (i : Nat) : List (Action Int String) :=
  [.worker i, .worker i, .worker i, .worker i]

/-- Two workers: two tasks are submitted, worker 0 takes the first, a third
task is submitted. -/
def pre3 : List (Action Int String) :=
  [.submit ident 0 [1], .submit ident 0 [2], .worker 0, .worker 0, .worker 0,
   .submit ident 0 [3]]

/-- Two workers after `pre3` and the entry into the destructor: the workers
run the queued tasks and the destructor's empty task, the destructor sets the
flag, both workers leave their loop and are joined. -/
def post3 : List (Action Int String) :=
  turn 1 ++ [.worker 0, .worker 1, .worker 1, .worker 1, .worker 0, .worker 0,
   .worker 0, .worker 1, .worker 0, .owner, .owner, .owner, .worker 0, .worker 1,
   .owner, .owner, .owner]

/-- The state of the two workers' pool after `pre3`. -/
def before3 : ThreadPool Int String := after 0 pre3 (pool 2)

/-- The state of the two workers' pool after `pre3`, the entry into the
destructor and `post3`. -/
def after3 : ThreadPool Int String := after 0 (.destroy :: post3) before3

/-- Scenario A: one worker, the identity is submitted with the argument 5 and
the worker goes once round its loop. -/
def scenarioA : ThreadPool Int String :=
  after 0 (turn 0) ((pool 1).submit ident 0 [5]).1

/-- One worker: the destructor is entered, the worker runs the destructor's
empty task, and the destructor passes `f.get()` and sets the flag. -/
def shutActs : List (Action Int String) :=
  .destroy :: turn 0 ++ [.owner, .owner]

/-- The state of a pool of one worker after `shutActs`: the flag is set, the
queue is empty, the worker is at the top of its loop. -/
def shut : ThreadPool Int String := after 0 shutActs (pool 1)

/-- The run `shutActs` followed by a call of `submit`, made by another thread
while the destructor is at line 181. -/
def lateActs : List (Action Int String) := shutActs ++ [.submit ident 0 [7]]

/-- The run of the two actions after which a pool without workers has one
task queued and its destructor entered. -/
def idleActs : List (Action Int String) := [.submit ident 0 [5], .destroy]

/-- The run that takes one worker up to the call of a task that throws. -/
def failingActs : List (Action Int String) :=
  [.submit boom 0 [], .worker 0, .worker 0, .worker 0]

/-- The state `shut` after one more call of `submit`, made by another thread
while the destructor is at line 181. -/
def late : ThreadPool Int String := (shut.submit ident 0 [7]).1

/-- One worker holding a popped task whose callable throws "boom". -/
def failing : ThreadPool Int String :=
  after 0 failingActs (pool 1)

/-- The state `failing` after the worker has called the throwing task, a
further `submit` of the identity with the argument 5, and one more turn of the
worker. -/
def recovered : ThreadPool Int String :=
  after 0 (turn 0) ((after 0 [.worker 0] failing).submit ident 0 [5]).1

end Demo

end ThreadPool

/-! ## Properties of safe_queue -/

namespace safe_queue

variable {T : Type}

theorem pushAll_que (q : safe_queue T) (xs : List T) :
    (pushAll q xs).que = q.que ++ xs := by
  induction xs generalizing q with
  | nil => simp [pushAll]
  | cons x xs ih => simp [pushAll, ih, push]

theorem popMany_take (n : Nat) (l : List T) (t : T) :
    popMany n ⟨l⟩ t = l.take n := by
  induction n generalizing l t with
  | zero => simp [popMany]
  | succ n ih =>
    cases l with
    | nil => simp [popMany, pop, ih]
    | cons x rest => simp [popMany, pop, ih]

theorem Tally.apply_balance (t0 : T) (c : Tally T) (op : Op T)
    (h : c.q.size + c.pops = c.pushes) :
    (c.apply t0 op).q.size + (c.apply t0 op).pops = (c.apply t0 op).pushes := by
  cases op with
  | push t =>
    simp only [Tally.apply, size, push, List.length_append, List.length_singleton] at *
    omega
  | pop =>
    cases hq : c.q.que with
    | nil =>
      simp only [Tally.apply, pop, hq, size] at *
      simpa using h
    | cons x rest =>
      simp only [Tally.apply, pop, hq, size, List.length_cons] at *
      omega

theorem Tally.foldl_balance (t0 : T) (ops : List (Op T)) (c : Tally T)
    (h : c.q.size + c.pops = c.pushes) :
    (ops.foldl (Tally.apply t0) c).q.size + (ops.foldl (Tally.apply t0) c).pops
      = (ops.foldl (Tally.apply t0) c).pushes := by
  induction ops generalizing c with
  | nil => simpa using h
  | cons op ops ih =>
    simp only [List.foldl_cons]
    exact ih _ (Tally.apply_balance t0 c op h)

theorem Log.apply_order (t0 : T) (c : Log T) (op : Op T)
    (h : c.popped ++ c.q.que = c.pushed) :
    (c.apply t0 op).popped ++ (c.apply t0 op).q.que = (c.apply t0 op).pushed := by
  cases op with
  | push t => simp [Log.apply, push, ← h]
  | pop =>
    cases hq : c.q.que with
    | nil =>
      simp only [Log.apply, pop, hq]
      simpa [hq] using h
    | cons x rest =>
      simp only [Log.apply, pop, hq]
      simpa [hq] using h

theorem Log.foldl_order (t0 : T) (ops : List (Op T)) (c : Log T)
    (h : c.popped ++ c.q.que = c.pushed) :
    (ops.foldl (Log.apply t0) c).popped ++ (ops.foldl (Log.apply t0) c).q.que
      = (ops.foldl (Log.apply t0) c).pushed := by
  induction ops generalizing c with
  | nil => simpa using h
  | cons op ops ih =>
    simp only [List.foldl_cons]
    exact ih _ (Log.apply_order t0 c op h)

/-- Claim C1. Pushing the items `xs` in order onto an empty queue and then
calling `pop` repeatedly hands back exactly `xs`, in push order: the first `n`
calls hand back the first `n` items, `xs.length` calls hand back all of `xs`,
and further calls hand back nothing more. And for every sequence of `push` and
`pop` calls, in any interleaving, on an initially empty queue, the items
handed back by the successful pops, in call order, followed by the items still
in the queue, are exactly the items pushed, in push order. -/
theorem fifo_order (xs : List T) (t : T) :
    (∀ n, popMany n (pushAll init xs) t = xs.take n) ∧
    popMany xs.length (pushAll init xs) t = xs ∧
    (∀ k, popMany (xs.length + k) (pushAll init xs) t = xs) ∧
    (∀ ops : List (Op T),
      (Log.run t ops).popped ++ (Log.run t ops).q.que = (Log.run t ops).pushed) := by
  have h : pushAll (init : safe_queue T) xs = ⟨xs⟩ := by
    have := pushAll_que (init : safe_queue T) xs
    cases hq : pushAll (init : safe_queue T) xs with
    | mk l =>
      rw [hq] at this
      simp only [init, List.nil_append] at this
      rw [this]
  refine ⟨fun n => ?_, ?_, fun k => ?_, fun ops => ?_⟩
  · rw [h, popMany_take]
  · rw [h, popMany_take, List.take_length]
  · rw [h, popMany_take]
    exact List.take_of_length_le (Nat.le_add_right _ _)
  · exact Log.foldl_order t ops ⟨init, [], []⟩ (by simp [init])

/-- Claim C7. On an empty queue `pop(t)` returns false, leaves `t` as it was
and leaves the queue empty, whatever `t` holds; and on any queue `pop` returns
false exactly when the queue is empty. -/
theorem pop_empty_noop (t : T) :
    pop (init : safe_queue T) t = (false, t, init) ∧
    (∀ q : safe_queue T, (q.pop t).1 = false ↔ q.empty = true) := by
  refine ⟨rfl, fun q => ?_⟩
  cases hq : q.que with
  | nil => simp [pop, empty, hq]
  | cons x rest => simp [pop, empty, hq]

/-- Claim C8. After any sequence of `push` and `pop` calls on an initially
empty queue, `size()` is the number of pushes minus the number of pops that
returned true (the pops never outnumber the pushes), and `empty()` is true
exactly when that difference is zero. -/
theorem size_count (t0 : T) (ops : List (Op T)) :
    (Tally.run t0 ops).pops ≤ (Tally.run t0 ops).pushes ∧
    (Tally.run t0 ops).q.size = (Tally.run t0 ops).pushes - (Tally.run t0 ops).pops ∧
    ((Tally.run t0 ops).q.empty = true ↔
      (Tally.run t0 ops).pushes - (Tally.run t0 ops).pops = 0) := by
  have h := Tally.foldl_balance t0 ops ⟨init, 0, 0⟩ (by simp [size, init])
  have he : (Tally.run t0 ops).q.empty = true ↔ (Tally.run t0 ops).q.size = 0 := by
    simp [empty, size, List.isEmpty_iff]
  unfold Tally.run at *
  refine ⟨by omega, by omega, ?_⟩
  rw [he]
  omega

end safe_queue

/-! ## The invariant of the pool -/

namespace ThreadPool

variable {V E : Type}

theorem inflight_set_count (ws : List WorkerPc) (i : Nat) (w w1 : WorkerPc)
    (h : ws[i]? = some w) (p : Nat) :
    (inflight (ws.set i w1)).count p + w.task.count p =
      (inflight ws).count p + w1.task.count p := by
  induction ws generalizing i with
  | nil => simp at h
  | cons x xs ih =>
    cases i with
    | zero =>
      simp only [List.getElem?_cons_zero, Option.some.injEq] at h
      subst h
      simp only [List.set_cons_zero, inflight, List.count_append]
      omega
    | succ i =>
      simp only [List.getElem?_cons_succ] at h
      have := ih i h
      simp only [List.set_cons_succ, inflight, List.count_append]
      omega

theorem inflight_set_same (ws : List WorkerPc) (i : Nat) (w w1 : WorkerPc)
    (h : ws[i]? = some w) (hw : w.task = []) (hw1 : w1.task = []) :
    inflight (ws.set i w1) = inflight ws := by
  induction ws generalizing i with
  | nil => simp at h
  | cons x xs ih =>
    cases i with
    | zero =>
      simp only [List.getElem?_cons_zero, Option.some.injEq] at h
      subst h
      simp [inflight, hw, hw1]
    | succ i =>
      simp only [List.getElem?_cons_succ] at h
      simp [inflight, ih i h]

theorem inflight_replicate (n : Nat) : inflight (List.replicate n .loopTop) = [] := by
  induction n with
  | zero => rfl
  | succ n ih => simp [List.replicate_succ, inflight, ih, WorkerPc.task]

theorem inv_init (mem : Memory V) (n : Nat) : Inv mem (init n : ThreadPool V E) where
  size_le := by simp [init, safe_queue.size, safe_queue.init]
  que_eq := by simp [init, safe_queue.size, safe_queue.init]
  once := by
    intro p
    simp [init, inflight_replicate, taken, safe_queue.size, safe_queue.init]
  state := by
    intro p pt h
    simp [init] at h
  exited := by
    intro w hw he
    simp only [init, List.mem_replicate] at hw
    rw [hw.2] at he
    cases he

theorem ownerOk_init (n : Nat) : ownerOk (init n : ThreadPool V E) := by
  simp [ownerOk, init]

theorem Inv.with_owner {mem : Memory V} {s : ThreadPool V E} (h : Inv mem s)
    (o : OwnerPc) : Inv mem { s with owner := o } :=
  ⟨h.size_le, h.que_eq, h.once, h.state, h.exited⟩

theorem Inv.with_flag {mem : Memory V} {s : ThreadPool V E} (h : Inv mem s) :
    Inv mem { s with is_shut_down := true } :=
  ⟨h.size_le, h.que_eq, h.once, h.state, fun _ _ _ => rfl⟩

theorem inv_submit {mem : Memory V} {s : ThreadPool V E} (h : Inv mem s)
    (code : V → List V → Except E V) (f : Nat) (args : List V) :
    Inv mem (s.submit code f args).1 where
  size_le := by
    have := h.size_le
    simp only [submit, safe_queue.size, safe_queue.push, List.length_append,
      List.length_singleton] at *
    omega
  que_eq := by
    have h1 := h.size_le
    have h2 := h.que_eq
    simp only [submit, safe_queue.size, safe_queue.push, List.length_append,
      List.length_singleton, taken] at *
    rw [h2, List.range'_1_concat, List.map_append]
    simp only [List.length_map, List.length_range', List.map_cons, List.map_nil]
    have e1 : s.heap.length + 1 - (s.que.que.length + 1) = s.heap.length - s.que.que.length := by
      omega
    have e2 : s.heap.length - s.que.que.length + s.que.que.length = s.heap.length := by omega
    rw [e1, e2]
  once := by
    intro p
    have h1 := h.once p
    have h2 := h.size_le
    simp only [submit, safe_queue.size, safe_queue.push, List.length_append,
      List.length_singleton, taken] at *
    have e1 : s.heap.length + 1 - (s.que.que.length + 1) = s.heap.length - s.que.que.length := by
      omega
    rw [e1]
    exact h1
  state := by
    intro p pt hp
    simp only [submit] at hp ⊢
    rcases Nat.lt_or_ge p s.heap.length with hlt | hge
    · rw [List.getElem?_append_left hlt] at hp
      exact h.state p pt hp
    · rw [List.getElem?_append_right hge] at hp
      have hp0 : p - s.heap.length = 0 := by
        by_contra hne
        have : 1 ≤ p - s.heap.length := by omega
        rw [List.getElem?_eq_none (by simpa using this)] at hp
        cases hp
      rw [hp0] at hp
      simp only [List.getElem?_cons_zero, Option.some.injEq] at hp
      subst hp
      have hnot : p ∉ s.executed := by
        intro hmem
        have hc : 0 < s.executed.count p := List.count_pos_iff.mpr hmem
        have := h.once p
        have h2 := h.size_le
        simp only [taken, safe_queue.size] at this h2
        split at this <;> omega
      simp [hnot]
  exited := h.exited

theorem invoke_length {mem : Memory V} {heap heap1 : List (packaged_task V E)}
    {func : Option Nat} (h : invoke mem heap func = some heap1) :
    heap1.length = heap.length := by
  unfold invoke at h
  split at h
  · cases h
  · split at h
    · cases h
    · split at h
      · cases h
        simp
      · cases h

/-- The shape of a worker step: thread `i` stood at `w`, which is not the end
of its loop, and now stands at `w1`; nothing of the owner changed, the log
and the heap only grew. -/
theorem worker_step_shape {mem : Memory V} {s s1 : ThreadPool V E} {i : Nat}
    (h : worker.step mem s i = some s1) :
    ∃ w w1, s.threads[i]? = some w ∧ w ≠ .exited ∧ s1.threads = s.threads.set i w1 ∧
      (w1 = .exited → s.is_shut_down = true) ∧
      s1.owner = s.owner ∧ s1.is_shut_down = s.is_shut_down ∧
      s1.heap.length = s.heap.length ∧ (∀ p ∈ s.executed, p ∈ s1.executed) := by
  unfold worker.step at h
  split at h
  · cases h
  · rename_i hw
    split at h
    · rename_i hf
      cases h
      exact ⟨_, .exited, hw, by simp, rfl, fun _ => hf, rfl, rfl, rfl, fun _ hp => hp⟩
    · cases h
      exact ⟨_, .waiting, hw, by simp, rfl, by simp, rfl, rfl, rfl, fun _ hp => hp⟩
  · rename_i hw
    split at h
    · cases h
      exact ⟨_, .popping, hw, by simp, rfl, by simp, rfl, rfl, rfl, fun _ hp => hp⟩
    · cases h
  · rename_i hw
    split at h
    · cases h
      exact ⟨_, _, hw, by simp, rfl, by simp, rfl, rfl, rfl, fun _ hp => hp⟩
    · cases h
      exact ⟨_, .loopTop, hw, by simp, rfl, by simp, rfl, rfl, rfl, fun _ hp => hp⟩
  · rename_i func hw
    split at h
    · rename_i heap1 hinv
      cases h
      exact ⟨_, .loopTop, hw, by simp, rfl, by simp, rfl, rfl, invoke_length hinv,
        fun _ hp => List.mem_append_left _ hp⟩
    · cases h
      exact ⟨_, .aborted, hw, by simp, rfl, by simp, rfl, rfl, rfl, fun _ hp => hp⟩
  · cases h
  · cases h

theorem ownerOk_worker {mem : Memory V} {s s1 : ThreadPool V E} {i : Nat}
    (h : worker.step mem s i = some s1) (ho : ownerOk s) : ownerOk s1 := by
  obtain ⟨w, w1, hw, hne, hth, _, hown, hflag, hlen, hex⟩ := worker_step_shape h
  unfold ownerOk at *
  rw [hown]
  split at ho
  · simpa [hflag] using ho
  · simpa [hflag, hlen] using ho
  · exact ⟨by simpa [hflag] using ho.1, hex _ ho.2⟩
  · exact hex _ ho
  · refine ⟨hex _ ho.1, fun j hj hjl => ?_⟩
    rw [hth] at hjl ⊢
    simp only [List.length_set] at hjl
    have hji : i ≠ j := by
      intro e
      subst e
      have := ho.2 i hj hjl
      rw [hw] at this
      exact hne (Option.some.inj this)
    rw [List.getElem?_set_ne hji]
    exact ho.2 j hj hjl
  · exfalso
    have hmem : w ∈ s.threads := List.mem_iff_getElem?.mpr ⟨i, hw⟩
    exact hne (ho.2 w hmem)
  · simpa [hflag] using ho

theorem Inv.set_idle {mem : Memory V} {s : ThreadPool V E} (h : Inv mem s)
    {i : Nat} {w w1 : WorkerPc} (hw : s.threads[i]? = some w) (ht : w.task = [])
    (ht1 : w1.task = []) (he : w1 = .exited → s.is_shut_down = true) :
    Inv mem { s with threads := s.threads.set i w1 } where
  size_le := h.size_le
  que_eq := h.que_eq
  once := by
    intro p
    simp only
    rw [inflight_set_same _ _ _ _ hw ht ht1]
    exact h.once p
  state := h.state
  exited := by
    intro x hx hxe
    rcases List.mem_or_eq_of_mem_set hx with hm | hm
    · exact h.exited x hm hxe
    · exact he (hm ▸ hxe)

/-- A task held by a worker is allocated and its shared state is not yet
written. -/
theorem Inv.held_pending {mem : Memory V} {s : ThreadPool V E} (h : Inv mem s)
    {i p : Nat} (hw : s.threads[i]? = some (.running (some p))) :
    p ∉ s.executed ∧ ∃ pt, s.heap[p]? = some pt ∧ pt.state = .pending := by
  have hc := inflight_set_count s.threads i _ .loopTop hw p
  have ho := h.once p
  have hs := h.size_le
  simp only [WorkerPc.task, List.count_cons_self, List.count_nil, taken] at hc ho
  have hnot : p ∉ s.executed := by
    intro hm
    have := List.count_pos_iff.mpr hm
    split at ho <;> omega
  have hlt : p < s.heap.length := by
    split at ho <;> omega
  refine ⟨hnot, s.heap[p], List.getElem?_eq_getElem hlt, ?_⟩
  have := h.state p _ (List.getElem?_eq_getElem hlt)
  simpa [hnot] using this

theorem inv_worker {mem : Memory V} {s s1 : ThreadPool V E} {i : Nat}
    (hs : worker.step mem s i = some s1) (h : Inv mem s) : Inv mem s1 := by
  unfold worker.step at hs
  split at hs
  · cases hs
  · rename_i hw
    split at hs
    · rename_i hf
      cases hs
      exact h.set_idle hw rfl rfl (fun _ => hf)
    · cases hs
      exact h.set_idle hw rfl rfl (by simp)
  · rename_i hw
    split at hs
    · cases hs
      exact h.set_idle hw rfl rfl (by simp)
    · cases hs
  · rename_i hw
    cases hq : s.que.que with
    | nil =>
      simp only [safe_queue.pop, hq] at hs
      cases hs
      exact h.set_idle hw rfl rfl (by simp)
    | cons x rest =>
      simp only [safe_queue.pop, hq] at hs
      cases hs
      have hsz := h.size_le
      have hqe := h.que_eq
      simp only [safe_queue.size, hq, List.length_cons, taken] at hsz hqe
      rw [List.range'_succ, List.map_cons, List.cons.injEq] at hqe
      obtain ⟨hx, hrest⟩ := hqe
      have e1 : s.heap.length - rest.length = s.heap.length - (rest.length + 1) + 1 := by
        omega
      refine ⟨?_, ?_, ?_, h.state, ?_⟩
      · simp only [safe_queue.size]
        omega
      · simp only [safe_queue.size, taken]
        rw [e1]
        exact hrest
      · intro p
        have hc := inflight_set_count s.threads i _ (.running x) hw p
        have ho := h.once p
        simp only [safe_queue.size, taken, hq, List.length_cons] at ho ⊢
        rw [hx] at hc ⊢
        simp only [WorkerPc.task, List.count_nil, List.count_cons, List.count_nil] at hc
        simp only [beq_iff_eq] at hc
        split at ho <;> split at hc <;> split <;> omega
      · intro y hy hye
        rcases List.mem_or_eq_of_mem_set hy with hm | hm
        · exact h.exited y hm hye
        · rw [hm] at hye
          cases hye
  · rename_i func hw
    cases func with
    | none =>
      simp only [invoke] at hs
      cases hs
      exact h.set_idle hw rfl rfl (by simp)
    | some p =>
      obtain ⟨hnot, pt, hpt, hpend⟩ := h.held_pending hw
      simp only [invoke, hpt, hpend] at hs
      cases hs
      refine ⟨?_, ?_, ?_, ?_, ?_⟩
      · simpa using h.size_le
      · simpa [taken] using h.que_eq
      · intro q
        have hc := inflight_set_count s.threads i _ .loopTop hw q
        have ho := h.once q
        simp only [taken, List.length_set, Option.toList, List.count_append] at ho ⊢
        simp only [WorkerPc.task, List.count_nil] at hc
        omega
      · intro q qt hq
        simp only [Option.toList, List.mem_append, List.mem_singleton] at hq ⊢
        by_cases hqp : p = q
        · subst hqp
          have hlt : p < s.heap.length := by
            rcases List.getElem?_eq_some_iff.mp hpt with ⟨hl, _⟩
            exact hl
          rw [List.getElem?_set_self hlt] at hq
          cases hq
          simp
        · rw [List.getElem?_set_ne hqp] at hq
          have := h.state q qt hq
          have hne : ¬ q = p := fun e => hqp e.symm
          simpa [hne] using this
      · intro y hy hye
        rcases List.mem_or_eq_of_mem_set hy with hm | hm
        · exact h.exited y hm hye
        · rw [hm] at hye
          cases hye
  · cases hs
  · cases hs

theorem inv_owner {mem : Memory V} {s s1 : ThreadPool V E}
    (hs : owner.step s = some s1) (h : Inv mem s) : Inv mem s1 := by
  unfold owner.step at hs
  split at hs
  · split at hs
    · cases hs
    · split at hs
      · cases hs
      · cases hs
        exact h.with_owner _
      · cases hs
        exact h.with_owner _
  · cases hs
    exact ⟨h.size_le, h.que_eq, h.once, h.state, fun _ _ _ => rfl⟩
  · cases hs
    exact h.with_owner _
  · split at hs
    · cases hs
      exact h.with_owner _
    · cases hs
      exact h.with_owner _
    · cases hs
  · cases hs

theorem ownerOk_owner {mem : Memory V} {s s1 : ThreadPool V E}
    (hs : owner.step s = some s1) (h : Inv mem s) (ho : ownerOk s) : ownerOk s1 := by
  unfold owner.step at hs
  split at hs
  · rename_i f hf
    simp only [ownerOk, hf] at ho
    split at hs
    · cases hs
    · rename_i pt hpt
      have hst := h.state f pt hpt
      split at hs
      · cases hs
      · rename_i v hv
        cases hs
        refine ⟨ho.1, ?_⟩
        by_contra hnot
        simp only [hnot, if_false] at hst
        rw [hst] at hv
        cases hv
      · cases hs
        exact ho.1
  · rename_i f hf
    simp only [ownerOk, hf] at ho
    cases hs
    exact ho.2
  · rename_i f hf
    simp only [ownerOk, hf] at ho
    cases hs
    exact ⟨ho, fun j hj _ => absurd hj (Nat.not_lt_zero j)⟩
  · rename_i f i hf
    simp only [ownerOk, hf] at ho
    split at hs
    · rename_i hnone
      cases hs
      refine ⟨ho.1, fun w hw => ?_⟩
      obtain ⟨j, hj⟩ := List.mem_iff_getElem?.mp hw
      have hjl : j < s.threads.length := (List.getElem?_eq_some_iff.mp hj).1
      have hil : s.threads.length ≤ i := List.getElem?_eq_none_iff.mp hnone
      have := ho.2 j (by omega) hjl
      rw [hj] at this
      exact Option.some.inj this
    · rename_i hex
      cases hs
      refine ⟨ho.1, fun j hj hjl => ?_⟩
      rcases Nat.lt_or_ge j i with hlt | hge
      · exact ho.2 j hlt hjl
      · have : j = i := by omega
        rw [this]
        exact hex
    · cases hs
  · cases hs

theorem ownerOk_submit {s : ThreadPool V E} (ho : ownerOk s)
    (code : V → List V → Except E V) (f : Nat) (args : List V) :
    ownerOk (s.submit code f args).1 := by
  unfold ownerOk at *
  simp only [submit, List.length_append, List.length_singleton]
  split at ho
  · exact ho
  · exact ⟨ho.1, by omega⟩
  · exact ho
  · exact ho
  · exact ho
  · exact ho
  · exact ho

/-- The invariant together with what the owner's position implies. -/
theorem good_step [Inhabited V] {mem : Memory V} {s s1 : ThreadPool V E}
    {a : Action V E} (hs : step mem s a = some s1) (h : Inv mem s) (ho : ownerOk s) :
    Inv mem s1 ∧ ownerOk s1 := by
  cases a with
  | submit code f args =>
    simp only [step] at hs
    split at hs
    · cases hs
    · cases hs
    · cases hs
      exact ⟨inv_submit h code f args, ownerOk_submit ho code f args⟩
  | destroy =>
    simp only [step, destroy] at hs
    split at hs
    · rename_i hl
      cases hs
      refine ⟨(inv_submit h noop 0 []).with_owner _, ?_⟩
      simp only [ownerOk, hl] at ho
      simp only [ownerOk, submit, List.length_append, List.length_singleton]
      exact ⟨ho, by omega⟩
    · cases hs
  | owner =>
    exact ⟨inv_owner hs h, ownerOk_owner hs h ho⟩
  | worker i =>
    exact ⟨inv_worker hs h, ownerOk_worker hs ho⟩

theorem good_run [Inhabited V] {mem : Memory V} (acts : List (Action V E))
    {s s1 : ThreadPool V E} (hs : run mem acts s = some s1) (h : Inv mem s)
    (ho : ownerOk s) : Inv mem s1 ∧ ownerOk s1 := by
  induction acts generalizing s with
  | nil =>
    simp only [run, Option.some.injEq] at hs
    subst hs
    exact ⟨h, ho⟩
  | cons a rest ih =>
    simp only [run] at hs
    split at hs
    · cases hs
    · rename_i s2 hstep
      have := good_step hstep h ho
      exact ih hs this.1 this.2

theorem good_reach [Inhabited V] {mem : Memory V} {n : Nat} (acts : List (Action V E))
    {s : ThreadPool V E} (hs : run mem acts (init n) = some s) :
    Inv mem s ∧ ownerOk s :=
  good_run acts hs (inv_init mem n) (ownerOk_init n)

/-! ## Facts about runs -/

theorem inflight_all_exited (ws : List WorkerPc) (h : ∀ w ∈ ws, w = .exited) :
    inflight ws = [] := by
  induction ws with
  | nil => rfl
  | cons x xs ih =>
    have hx : x = .exited := h x (List.mem_cons_self _ _)
    subst hx
    simp only [inflight, WorkerPc.task, List.nil_append]
    exact ih (fun w hw => h w (List.mem_cons_of_mem _ hw))

theorem owner_step_future {s s1 : ThreadPool V E} (hs : owner.step s = some s1) :
    s.owner ≠ .live ∧ s1.owner ≠ .live ∧ s1.heap = s.heap ∧
      (s1.owner = .aborted ∨ s1.owner.future = s.owner.future) := by
  unfold owner.step at hs
  split at hs
  · rename_i f hf
    split at hs
    · cases hs
    · split at hs
      · cases hs
      · cases hs
        simp [hf, OwnerPc.future]
      · cases hs
        simp [hf]
  · rename_i f hf
    cases hs
    simp [hf, OwnerPc.future]
  · rename_i f hf
    cases hs
    simp [hf, OwnerPc.future]
  · rename_i f i hf
    split at hs
    · cases hs
      simp [hf, OwnerPc.future]
    · cases hs
      simp [hf, OwnerPc.future]
    · cases hs
  · cases hs

/-- Once the destructor holds its future `f`, it keeps it. -/
theorem step_future [Inhabited V] {mem : Memory V} {s s1 : ThreadPool V E}
    {a : Action V E} {f : Nat} (hs : step mem s a = some s1)
    (h : s.owner = .aborted ∨ s.owner.future = some f) :
    s1.owner = .aborted ∨ s1.owner.future = some f := by
  cases a with
  | submit code g args =>
    simp only [step] at hs
    split at hs
    · cases hs
    · cases hs
    · cases hs
      exact h
  | destroy =>
    simp only [step, destroy] at hs
    split at hs
    · rename_i hl
      rw [hl] at h
      simp [OwnerPc.future] at h
    · cases hs
  | owner =>
    obtain ⟨_, _, _, h1⟩ := owner_step_future hs
    rcases h1 with h1 | h1
    · exact Or.inl h1
    · rcases h with h | h
      · simp only [step, owner.step, h] at hs
        cases hs
      · exact Or.inr (h1.trans h)
  | worker i =>
    obtain ⟨_, _, _, _, _, _, hown, _⟩ := worker_step_shape hs
    rw [hown]
    exact h

theorem run_future [Inhabited V] {mem : Memory V} (acts : List (Action V E))
    {s s1 : ThreadPool V E} {f : Nat} (hs : run mem acts s = some s1)
    (h : s.owner = .aborted ∨ s.owner.future = some f) :
    s1.owner = .aborted ∨ s1.owner.future = some f := by
  induction acts generalizing s with
  | nil =>
    simp only [run, Option.some.injEq] at hs
    subst hs
    exact h
  | cons a rest ih =>
    simp only [run] at hs
    split at hs
    · cases hs
    · rename_i s2 hstep
      exact ih hs (step_future hstep h)

/-- A move that is not a call of `submit`, made after the destructor was
entered, allocates no task. -/
theorem step_no_submit [Inhabited V] {mem : Memory V} {s s1 : ThreadPool V E}
    {a : Action V E} (hs : step mem s a = some s1) (ha : a.isSubmit = false)
    (hl : s.owner ≠ .live) : s1.owner ≠ .live ∧ s1.heap.length = s.heap.length := by
  cases a with
  | submit code g args => simp [Action.isSubmit] at ha
  | destroy =>
    cases ho : s.owner with
    | live => exact absurd ho hl
    | _ =>
      simp only [step, destroy, ho] at hs
      cases hs
  | owner =>
    obtain ⟨_, h1, h2, _⟩ := owner_step_future hs
    exact ⟨h1, by rw [h2]⟩
  | worker i =>
    obtain ⟨_, _, _, _, _, _, hown, _, hlen, _⟩ := worker_step_shape hs
    exact ⟨by rw [hown]; exact hl, hlen⟩

theorem run_no_submit [Inhabited V] {mem : Memory V} (acts : List (Action V E))
    {s s1 : ThreadPool V E} (hs : run mem acts s = some s1)
    (ha : ∀ a ∈ acts, a.isSubmit = false) (hl : s.owner ≠ .live) :
    s1.heap.length = s.heap.length := by
  induction acts generalizing s with
  | nil =>
    simp only [run, Option.some.injEq] at hs
    subst hs
    rfl
  | cons a rest ih =>
    simp only [run] at hs
    split at hs
    · cases hs
    · rename_i s2 hstep
      have h2 := step_no_submit hstep (ha a (List.mem_cons_self _ _)) hl
      rw [ih hs (fun b hb => ha b (List.mem_cons_of_mem _ hb)) h2.1, h2.2]

/-- Before the destructor is entered, tasks are allocated by calls of `submit`
only. -/
theorem step_live [Inhabited V] {mem : Memory V} {s s1 : ThreadPool V E}
    {a : Action V E} (hs : step mem s a = some s1) (hl : s1.owner = .live) :
    s.owner = .live ∧
      s1.heap.length = s.heap.length + (if a.isSubmit then 1 else 0) := by
  cases a with
  | submit code g args =>
    simp only [step] at hs
    split at hs
    · cases hs
    · cases hs
    · cases hs
      exact ⟨hl, by simp [submit, Action.isSubmit]⟩
  | destroy =>
    simp only [step, destroy] at hs
    split at hs
    · cases hs
      cases hl
    · cases hs
  | owner =>
    obtain ⟨_, h1, _, _⟩ := owner_step_future hs
    exact absurd hl h1
  | worker i =>
    obtain ⟨_, _, _, _, _, _, hown, _, hlen, _⟩ := worker_step_shape hs
    exact ⟨by rw [← hown]; exact hl, by simp [hlen, Action.isSubmit]⟩

theorem run_live [Inhabited V] {mem : Memory V} (acts : List (Action V E))
    {s s1 : ThreadPool V E} (hs : run mem acts s = some s1) (hl : s1.owner = .live) :
    s.owner = .live ∧ s1.heap.length = s.heap.length + acts.countP Action.isSubmit := by
  induction acts generalizing s with
  | nil =>
    simp only [run, Option.some.injEq] at hs
    subst hs
    exact ⟨hl, rfl⟩
  | cons a rest ih =>
    simp only [run] at hs
    split at hs
    · cases hs
    · rename_i s2 hstep
      have h2 := ih hs
      have h1 := step_live hstep h2.1
      refine ⟨h1.1, ?_⟩
      rw [h2.2, h1.2, List.countP_cons]
      omega

/-- The state reached through the destructor: when the destructor has set the
flag, its future is the one made on entry, that task has been executed, and so
has left the queue together with every task allocated before it. -/
theorem after_destroy [Inhabited V] {mem : Memory V} {n : Nat}
    {pre post : List (Action V E)} {s0 s : ThreadPool V E}
    (hpre : run mem pre (init n) = some s0) (hlive : s0.owner = .live)
    (hpost : run mem (.destroy :: post) s0 = some s) :
    Inv mem s ∧ ownerOk s ∧
      (s.owner = .aborted ∨ s.owner.future = some s0.heap.length) ∧
      ((∀ a ∈ post, a.isSubmit = false) → s.heap.length = s0.heap.length + 1) := by
  have g0 := good_reach pre hpre
  have g := good_run _ hpost g0.1 g0.2
  refine ⟨g.1, g.2, ?_, ?_⟩
  · simp only [run, step, destroy, hlive] at hpost
    refine run_future post hpost (Or.inr ?_)
    simp [OwnerPc.future, submit]
  · intro ha
    simp only [run, step, destroy, hlive] at hpost
    rw [run_no_submit post hpost ha (by simp)]
    simp [submit]

/-- Claim C3. Take any pool of `n` workers, any run `pre` up to a state
`s0` in which the destructor has not been entered (the tasks submitted before
teardown are the `s0.heap.length` tasks allocated by the calls of `submit` in
`pre`), then the entry into the destructor and any further run `post`. If the
destructor has returned in the final state, then every one of those tasks has
been executed exactly once, every worker has left its loop, and, when no
thread called `submit` after the destructor was entered, the queue is empty. -/
theorem teardown_runs_each_once [Inhabited V] (mem : Memory V) (n : Nat)
    (pre post : List (Action V E)) (s0 s : ThreadPool V E) (f : Nat)
    (hpre : run mem pre (init n) = some s0) (hlive : s0.owner = .live)
    (hpost : run mem (.destroy :: post) s0 = some s) (hdone : s.owner = .done f) :
    s0.heap.length = pre.countP Action.isSubmit ∧
    (∀ p, p < s0.heap.length → s.executed.count p = 1) ∧
    (∀ w ∈ s.threads, w = .exited) ∧
    ((∀ a ∈ post, a.isSubmit = false) → s.que.que = []) := by
  obtain ⟨hinv, hown, hfut, hlen⟩ := after_destroy hpre hlive hpost
  have hcount := (run_live pre hpre hlive).2
  simp only [init, List.length_nil, Nat.zero_add] at hcount
  simp only [ownerOk, hdone] at hown
  have hf : f = s0.heap.length := by
    rcases hfut with h | h
    · rw [hdone] at h
      cases h
    · rw [hdone] at h
      simpa [OwnerPc.future] using h
  have hfl := inflight_all_exited s.threads hown.2
  have hft : f < taken s := by
    have h1 := hinv.once f
    have h2 : 0 < s.executed.count f := List.count_pos_iff.mpr hown.1
    split at h1
    · assumption
    · omega
  refine ⟨hcount, fun p hp => ?_, hown.2, fun ha => ?_⟩
  · have h1 := hinv.once p
    rw [hfl] at h1
    have hpt : p < taken s := by omega
    simpa [hpt] using h1
  · have h1 := hlen ha
    have h2 := hinv.size_le
    simp only [taken, safe_queue.size] at hft h2
    have : s.que.que.length = 0 := by omega
    exact List.length_eq_zero.mp this

/-- A packaged task stays where it was allocated and keeps its stored
function. -/
theorem step_func [Inhabited V] {mem : Memory V} {s s1 : ThreadPool V E}
    {a : Action V E} (hs : step mem s a = some s1) {p : Nat} {b : Bound V E}
    (h : ∃ pt, s.heap[p]? = some pt ∧ pt.func = b) :
    ∃ pt, s1.heap[p]? = some pt ∧ pt.func = b := by
  obtain ⟨pt, hpt, hb⟩ := h
  have hlt : p < s.heap.length := (List.getElem?_eq_some_iff.mp hpt).1
  have grow : ∀ x : packaged_task V E, (s.heap ++ [x])[p]? = some pt := by
    intro x
    rw [List.getElem?_append_left hlt]
    exact hpt
  cases a with
  | submit code g args =>
    simp only [step] at hs
    split at hs
    · cases hs
    · cases hs
    · cases hs
      exact ⟨pt, grow _, hb⟩
  | destroy =>
    simp only [step, destroy] at hs
    split at hs
    · cases hs
      exact ⟨pt, grow _, hb⟩
    · cases hs
  | owner =>
    obtain ⟨_, _, h2, _⟩ := owner_step_future hs
    exact ⟨pt, by rw [h2]; exact hpt, hb⟩
  | worker i =>
    simp only [step, worker.step] at hs
    split at hs
    · cases hs
    · split at hs <;> cases hs <;> exact ⟨pt, hpt, hb⟩
    · split at hs
      · cases hs
        exact ⟨pt, hpt, hb⟩
      · cases hs
    · split at hs <;> cases hs <;> exact ⟨pt, hpt, hb⟩
    · rename_i func hw
      split at hs
      · rename_i heap1 hinv
        cases hs
        simp only
        unfold invoke at hinv
        split at hinv
        · cases hinv
        · rename_i q
          split at hinv
          · cases hinv
          · rename_i qt hqt
            split at hinv
            · cases hinv
              by_cases hqp : q = p
              · subst hqp
                rw [hpt] at hqt
                cases hqt
                exact ⟨_, List.getElem?_set_self hlt, hb⟩
              · exact ⟨pt, by rw [List.getElem?_set_ne hqp]; exact hpt, hb⟩
            · cases hinv
      · cases hs
        exact ⟨pt, hpt, hb⟩
    · cases hs
    · cases hs

theorem run_func [Inhabited V] {mem : Memory V} (acts : List (Action V E))
    {s s1 : ThreadPool V E} (hs : run mem acts s = some s1) {p : Nat} {b : Bound V E}
    (h : ∃ pt, s.heap[p]? = some pt ∧ pt.func = b) :
    ∃ pt, s1.heap[p]? = some pt ∧ pt.func = b := by
  induction acts generalizing s with
  | nil =>
    simp only [run, Option.some.injEq] at hs
    subst hs
    exact h
  | cons a rest ih =>
    simp only [run] at hs
    split at hs
    · cases hs
    · rename_i s2 hstep
      exact ih hs (step_func hstep h)

theorem get_outcome (r : Except E V) : (outcome r).get = some r := by
  cases r <;> rfl

/-- Claim C2. Let `submit(f, args)` be called in any state `s0` that a pool
of `n` workers can reach, `code` being the call operator of the callable and
`f` the reference to the callable object in the caller memory `mem` of the
run, and let the system run on in any way. Once the log of executed tasks
holds the task that this call enqueued, the shared state of the future that
the call returned holds the outcome of `f(args)`, the call of that callable on
the submitted arguments, and `get` on the future yields that outcome. -/
theorem submit_future_resolves [Inhabited V] (mem : Memory V) (n : Nat)
    (pre post : List (Action V E)) (s0 s : ThreadPool V E)
    (code : V → List V → Except E V) (f : Nat) (args : List V)
    (hpre : run mem pre (init n) = some s0)
    (hpost : run mem post (s0.submit code f args).1 = some s)
    (hexec : (s0.submit code f args).2 ∈ s.executed) :
    ∃ pt, s.heap[(s0.submit code f args).2]? = some pt ∧
      pt.state = outcome (code (mem f) args) ∧
      pt.state.get = some (code (mem f) args) := by
  have g0 := good_reach pre hpre
  have g1 := inv_submit g0.1 code f args
  have g := good_run post hpost g1 (ownerOk_submit g0.2 code f args)
  have h0 : ∃ pt, (s0.submit code f args).1.heap[(s0.submit code f args).2]? = some pt ∧
      pt.func = ⟨code, f, args⟩ := by
    refine ⟨⟨⟨code, f, args⟩, .pending⟩, ?_, rfl⟩
    simp [submit]
  obtain ⟨pt, hpt, hb⟩ := run_func post hpost h0
  have hst := g.1.state _ pt hpt
  simp only [hexec, if_true, hb, Bound.call] at hst
  exact ⟨pt, hpt, hst, by rw [hst]; exact get_outcome _⟩

/-- Claim C6. In any state that a pool of `n` workers can reach, let worker
`i` be about to call the task `p` whose stored function throws the failure `e`.
The worker's step succeeds and takes the worker back to the top of its loop
(it does not abort); the failure is stored in the shared state of that task's
future and `get` on it throws `e` again; the queue, the flag, the owner, the
other workers and the other tasks are as before; and a later `submit` enqueues
its task and returns its future. -/
theorem failing_task_isolated [Inhabited V] (mem : Memory V) (n : Nat)
    (acts : List (Action V E)) (s : ThreadPool V E) (i p : Nat)
    (pt : packaged_task V E) (e : E)
    (hr : run mem acts (init n) = some s)
    (hw : s.threads[i]? = some (.running (some p)))
    (hpt : s.heap[p]? = some pt)
    (hfail : pt.func.call mem = .error e) :
    ∃ s1, worker.step mem s i = some s1 ∧
      s1.threads = s.threads.set i .loopTop ∧
      s1.heap = s.heap.set p { pt with state := .failed e } ∧
      (∃ pt1, s1.heap[p]? = some pt1 ∧ pt1.state.get = some (.error e)) ∧
      s1.que = s.que ∧ s1.is_shut_down = s.is_shut_down ∧ s1.owner = s.owner ∧
      (∀ (code : V → List V → Except E V) (f : Nat) (args : List V),
        (s1.submit code f args).2 = s1.heap.length ∧
        (s1.submit code f args).1.que.que = s1.que.que ++ [some s1.heap.length] ∧
        (s1.submit code f args).1.heap[s1.heap.length]? =
          some ⟨⟨code, f, args⟩, .pending⟩) := by
  have g := good_reach acts hr
  obtain ⟨_, pt0, hpt0, hpend⟩ := g.1.held_pending hw
  rw [hpt] at hpt0
  cases hpt0
  have hlt : p < s.heap.length := (List.getElem?_eq_some_iff.mp hpt).1
  refine ⟨{ s with heap := s.heap.set p { pt with state := .failed e },
                   threads := s.threads.set i .loopTop,
                   executed := s.executed ++ [p] }, ?_, rfl, rfl, ?_, rfl, rfl, rfl, ?_⟩
  · simp only [worker.step, hw, invoke, hpt, hpend, hfail, outcome, Option.toList]
  · exact ⟨_, List.getElem?_set_self hlt, rfl⟩
  · intro code f args
    refine ⟨rfl, rfl, ?_⟩
    simp [submit]

theorem zero_step [Inhabited V] {mem : Memory V} {s s1 : ThreadPool V E}
    {a : Action V E} (hs : step mem s a = some s1) (h : Inv mem s)
    (ht : s.threads = []) (he : s.executed = [])
    (ho : s.owner = .live ∨ ∃ f, s.owner = .get f) :
    s1.threads = [] ∧ s1.executed = [] ∧ (s1.owner = .live ∨ ∃ f, s1.owner = .get f) := by
  cases a with
  | submit code g args =>
    simp only [step] at hs
    split at hs
    · cases hs
    · cases hs
    · cases hs
      exact ⟨ht, he, ho⟩
  | destroy =>
    simp only [step, destroy] at hs
    split at hs
    · cases hs
      exact ⟨ht, he, Or.inr ⟨_, rfl⟩⟩
    · cases hs
  | owner =>
    exfalso
    rcases ho with ho | ⟨f, ho⟩
    · simp only [step, owner.step, ho] at hs
      cases hs
    · simp only [step, owner.step, ho] at hs
      split at hs
      · cases hs
      · rename_i pt hpt
        have := h.state f pt hpt
        simp only [he, List.not_mem_nil, if_false] at this
        simp only [this, Shared.get] at hs
        cases hs
  | worker i =>
    simp only [step, worker.step, ht, List.getElem?_nil] at hs
    cases hs

theorem zero_run [Inhabited V] {mem : Memory V} (acts : List (Action V E))
    {s s1 : ThreadPool V E} (hs : run mem acts s = some s1) (h : Inv mem s)
    (hk : ownerOk s) (ht : s.threads = []) (he : s.executed = [])
    (ho : s.owner = .live ∨ ∃ f, s.owner = .get f) :
    s1.threads = [] ∧ s1.executed = [] ∧ (s1.owner = .live ∨ ∃ f, s1.owner = .get f) := by
  induction acts generalizing s with
  | nil =>
    simp only [run, Option.some.injEq] at hs
    subst hs
    exact ⟨ht, he, ho⟩
  | cons a rest ih =>
    simp only [run] at hs
    split at hs
    · cases hs
    · rename_i s2 hstep
      have g := good_step hstep h hk
      have z := zero_step hstep h ht he ho
      exact ih hs g.1 g.2 z.1 z.2.1 z.2.2

/-- Claim C10. The constructor accepts `n = 0` and yields a pool without
workers. In every state that such a pool can reach, no task has been taken
from the queue (the queue holds every task ever submitted), no task has been
executed, the shared state of every future is still pending, the flag is
false, and the owner is either outside the destructor or blocked at `f.get()`
on the future of the destructor's own empty task, short of the line that sets
the flag. -/
theorem zero_workers_never_execute [Inhabited V] (mem : Memory V)
    (acts : List (Action V E)) (s : ThreadPool V E)
    (h : run mem acts (init 0) = some s) :
    (create 0 : Option (ThreadPool V E)) = some (init 0) ∧
    s.threads = [] ∧ s.executed = [] ∧ s.que.size = s.heap.length ∧
    (∀ pt ∈ s.heap, pt.state = .pending) ∧ s.is_shut_down = false ∧
    (s.owner = .live ∨ ∃ f, s.owner = .get f ∧ owner.step s = none) := by
  have g := good_reach acts h
  obtain ⟨ht, he, ho⟩ := zero_run acts h (inv_init mem 0) (ownerOk_init 0) rfl rfl
    (Or.inl rfl)
  have hpend : ∀ pt ∈ s.heap, pt.state = .pending := by
    intro pt hpt
    obtain ⟨j, hj⟩ := List.mem_iff_getElem?.mp hpt
    have := g.1.state j pt hj
    simpa [he] using this
  have hsize : s.que.size = s.heap.length := by
    have h1 := g.1.size_le
    have h2 := g.1.once (s.heap.length - s.que.size - 1)
    simp only [he, ht, inflight, List.count_nil, taken] at h2
    split at h2 <;> omega
  refine ⟨rfl, ht, he, hsize, hpend, ?_, ?_⟩
  · have hk := g.2
    rcases ho with ho | ⟨f, ho⟩
    · simpa [ownerOk, ho] using hk
    · simp only [ownerOk, ho] at hk
      exact hk.1
  · rcases ho with ho | ⟨f, ho⟩
    · exact Or.inl ho
    · refine Or.inr ⟨f, ho, ?_⟩
      have hk := g.2
      simp only [ownerOk, ho] at hk
      have hget : s.heap[f]? = some s.heap[f] := List.getElem?_eq_getElem hk.2
      have hp := hpend _ (List.getElem_mem hk.2)
      simp only [owner.step, ho, hget, hp, Shared.get]

/-! ## The claims on concrete runs, and the amended claims -/

/-- Witness of C3: two workers, three tasks submitted before the destructor is
entered and none after; the destructor returns, each of the three tasks has
been executed once and the queue is empty. -/
theorem teardown_runs_each_once_witness :
    run (Demo.mem 0) Demo.pre3 (init 2) = some Demo.before3 ∧
    Demo.before3.owner = .live ∧
    run (Demo.mem 0) (.destroy :: Demo.post3) Demo.before3 = some Demo.after3 ∧
    Demo.after3.owner = .done 3 ∧
    (∀ a ∈ Demo.post3, a.isSubmit = false) ∧
    Demo.before3.heap.length = 3 ∧
    (∀ p, p < 3 → Demo.after3.executed.count p = 1) ∧
    (∀ w ∈ Demo.after3.threads, w = .exited) ∧
    Demo.after3.que.que = [] :=
  have h := teardown_runs_each_once (Demo.mem 0) 2 Demo.pre3 Demo.post3
    Demo.before3 Demo.after3 3 rfl rfl rfl rfl
  have hp : ∀ a ∈ Demo.post3, a.isSubmit = false := by
    simp [Demo.post3, Demo.turn, Action.isSubmit]
  ⟨rfl, rfl, rfl, rfl, hp, rfl, h.2.1, h.2.2.1, h.2.2.2 hp⟩

/-- Witness of C2: a pool of one worker, the identity submitted with the
argument 5; after the worker's turn the future holds 5. -/
theorem submit_future_resolves_witness :
    run (Demo.mem 0) [] (init 1) = some (Demo.pool 1) ∧
    run (Demo.mem 0) (Demo.turn 0) ((Demo.pool 1).submit Demo.ident 0 [5]).1 =
      some Demo.scenarioA ∧
    ((Demo.pool 1).submit Demo.ident 0 [5]).2 ∈ Demo.scenarioA.executed ∧
    ∃ pt, Demo.scenarioA.heap[0]? = some pt ∧
      pt.state = .ready 5 ∧ pt.state.get = some (.ok 5) :=
  ⟨rfl, rfl, by decide,
    submit_future_resolves (Demo.mem 0) 1 [] (Demo.turn 0) (Demo.pool 1) _ Demo.ident 0 [5]
      rfl rfl (by decide)⟩

/-- Witness of C6: one worker holds the task that throws "boom"; its step
stores "boom" in the future and takes the worker back to the top of its loop,
and a task submitted afterwards is run by that worker and delivers its
result. -/
theorem failing_task_isolated_witness :
    run (Demo.mem 0) Demo.failingActs (init 1) = some Demo.failing ∧
    Demo.failing.threads[0]? = some (.running (some 0)) ∧
    Demo.failing.heap[0]? = some ⟨⟨Demo.boom, 0, []⟩, .pending⟩ ∧
    Bound.call (Demo.mem 0) ⟨Demo.boom, 0, []⟩ = .error "boom" ∧
    (∃ s1, worker.step (Demo.mem 0) Demo.failing 0 = some s1 ∧
      s1.threads = [.loopTop] ∧
      (∃ pt1, s1.heap[0]? = some pt1 ∧ pt1.state.get = some (.error "boom")) ∧
      s1.que = Demo.failing.que ∧ s1.is_shut_down = false) ∧
    (Demo.recovered.heap[1]?).map (fun pt => pt.state.get) = some (some (.ok 5)) := by
  refine ⟨rfl, rfl, rfl, rfl, ?_, rfl⟩
  obtain ⟨s1, h1, h2, _, h4, h5, h6, _⟩ :=
    failing_task_isolated (Demo.mem 0) 1 Demo.failingActs Demo.failing 0 0
      ⟨⟨Demo.boom, 0, []⟩, .pending⟩ "boom" rfl rfl rfl rfl
  exact ⟨s1, h1, h2, h4, h5, h6⟩

/-- Witness of C10: without workers, a task is submitted and the destructor
is entered; it stays blocked at `f.get()`. -/
theorem zero_workers_never_execute_witness :
    run (Demo.mem 0) Demo.idleActs (init 0) =
      some (Demo.after 0 Demo.idleActs (Demo.pool 0)) ∧
    (Demo.after 0 Demo.idleActs (Demo.pool 0)).executed = [] ∧
    (Demo.after 0 Demo.idleActs (Demo.pool 0)).que.size = 2 ∧
    (Demo.after 0 Demo.idleActs (Demo.pool 0)).is_shut_down = false :=
  have h := zero_workers_never_execute (Demo.mem 0) Demo.idleActs
    (Demo.after 0 Demo.idleActs (Demo.pool 0)) rfl
  ⟨rfl, h.2.2.1, h.2.2.2.1, h.2.2.2.2.2.1⟩

/-- Claim C4, as amended. In every state that a pool of `n` workers can reach:
a worker at the top of its loop with the flag set leaves the loop without
touching the queue, whatever the queue holds; with the flag clear and the
queue non-empty, its next four steps, taken in a row, dequeue the front task
and execute it; no worker has left its loop while the flag is clear; and when
the flag is set, the destructor's empty task `f` has been executed, every task
allocated up to `f` has left the queue (it is in the log or held by a worker,
once), and the queue holds only tasks allocated after `f`. -/
theorem worker_tests_flag_only [Inhabited V] (mem : Memory V) (n : Nat)
    (acts : List (Action V E)) (s : ThreadPool V E)
    (hr : run mem acts (init n) = some s) :
    (∀ i, s.threads[i]? = some .loopTop → s.is_shut_down = true →
      worker.step mem s i = some { s with threads := s.threads.set i .exited }) ∧
    (∀ i x rest, s.threads[i]? = some .loopTop → s.is_shut_down = false →
      s.que.que = x :: rest →
      ∃ p pt, x = some p ∧ s.heap[p]? = some pt ∧
        worker.steps mem 4 s i = some { s with
          que := ⟨rest⟩
          heap := s.heap.set p { pt with state := outcome (pt.func.call mem) }
          threads := s.threads.set i .loopTop
          executed := s.executed ++ [p] }) ∧
    (∀ w ∈ s.threads, w = .exited → s.is_shut_down = true) ∧
    (s.is_shut_down = true → ∃ f, s.owner.future = some f ∧ f ∈ s.executed ∧
      (∀ p, p ≤ f → s.executed.count p + (inflight s.threads).count p = 1) ∧
      ∀ x ∈ s.que.que, ∃ p, x = some p ∧ f < p) := by
  have g := good_reach acts hr
  refine ⟨?_, ?_, g.1.exited, ?_⟩
  · intro i hw hf
    simp only [worker.step, hw, hf, if_true]
  · intro i x rest hw hf hq
    have hsz := g.1.size_le
    have hqe := g.1.que_eq
    have hil : i < s.threads.length := (List.getElem?_eq_some_iff.mp hw).1
    simp only [safe_queue.size, hq, List.length_cons] at hsz hqe
    rw [List.range'_succ, List.map_cons, List.cons.injEq] at hqe
    have hlt : taken s < s.heap.length := by
      simp only [taken, safe_queue.size, hq, List.length_cons]
      omega
    have hnot : taken s ∉ s.executed := by
      intro hm
      have h1 := List.count_pos_iff.mpr hm
      have h2 := g.1.once (taken s)
      simp only [Nat.lt_irrefl, if_false] at h2
      omega
    have hst := g.1.state _ _ (List.getElem?_eq_getElem hlt)
    simp only [hnot, if_false] at hst
    refine ⟨taken s, s.heap[taken s], hqe.1, List.getElem?_eq_getElem hlt, ?_⟩
    simp only [worker.steps, worker.step, hw, hf, Bool.false_eq_true, if_false,
      List.getElem?_set_self hil, safe_queue.empty, hq, List.isEmpty_cons, Bool.not_false,
      Bool.or_true, if_true, safe_queue.pop, List.set_set, hqe.1, invoke,
      List.getElem?_eq_getElem hlt, hst, Option.toList]
  · intro hf
    have hk := g.2
    have key : ∀ f, f ∈ s.executed →
        (∀ p, p ≤ f → s.executed.count p + (inflight s.threads).count p = 1) ∧
        ∀ x ∈ s.que.que, ∃ p, x = some p ∧ f < p := by
      intro f hfe
      have hft : f < taken s := by
        have h1 := g.1.once f
        have h2 : 0 < s.executed.count f := List.count_pos_iff.mpr hfe
        split at h1
        · assumption
        · omega
      refine ⟨fun p hp => ?_, fun x hx => ?_⟩
      · have h1 := g.1.once p
        have hpt : p < taken s := by omega
        simpa [hpt] using h1
      · rw [g.1.que_eq] at hx
        simp only [List.mem_map, List.mem_range'_1] at hx
        obtain ⟨p, hp, hxp⟩ := hx
        exact ⟨p, hxp.symm, by omega⟩
    unfold ownerOk at hk
    split at hk
    · rw [hf] at hk; cases hk
    · rw [hf] at hk; cases hk.1
    · rw [hf] at hk; cases hk.1
    · rename_i f ho
      exact ⟨f, by rw [ho]; rfl, hk, key f hk⟩
    · rename_i f j ho
      exact ⟨f, by rw [ho]; rfl, hk.1, key f hk.1⟩
    · rename_i f ho
      exact ⟨f, by rw [ho]; rfl, hk.1, key f hk.1⟩
    · rw [hf] at hk; cases hk

/-- Witness of the amended C4 at the state `Demo.late`: the flag is set, the
queue holds a task, and the worker at the top of its loop leaves the loop; the
destructor's empty task 0 has been executed and the queued task was allocated
after it. -/
theorem worker_tests_flag_only_witness :
    run (Demo.mem 0) Demo.lateActs (init 1) = some Demo.late ∧
    Demo.late.threads[0]? = some .loopTop ∧ Demo.late.is_shut_down = true ∧
    worker.step (Demo.mem 0) Demo.late 0 =
      some { Demo.late with threads := Demo.late.threads.set 0 .exited } ∧
    (∃ f, Demo.late.owner.future = some f ∧ f ∈ Demo.late.executed ∧
      (∀ p, p ≤ f →
        Demo.late.executed.count p + (inflight Demo.late.threads).count p = 1) ∧
      ∀ x ∈ Demo.late.que.que, ∃ p, x = some p ∧ f < p) :=
  have h := worker_tests_flag_only (Demo.mem 0) 1 Demo.lateActs Demo.late rfl
  ⟨rfl, rfl, rfl, h.1 0 rfl rfl, h.2.2.2 rfl⟩

/-- Counterexample to C4 as stated. A pool of one worker reaches `Demo.late`:
the flag is set, the queue holds task 1 and the worker is at the top of its
loop. The worker's step leaves the loop and the queue keeps task 1; the
destructor then returns with task 1 still queued and only task 0 executed. -/
theorem worker_exits_with_queued_task :
    run (Demo.mem 0) Demo.lateActs (init 1) =
      some Demo.late ∧
    Demo.late.is_shut_down = true ∧ Demo.late.que.que = [some 1] ∧
    Demo.late.threads = [.loopTop] ∧
    worker.step (Demo.mem 0) Demo.late 0 = some { Demo.late with threads := [.exited] } ∧
    (run (Demo.mem 0) [.worker 0, .owner, .owner, .owner] Demo.late).map
      (fun s => (s.owner, s.threads, s.que.que, s.executed)) =
      some (.done 0, [.exited], [some 1], [0]) :=
  ⟨rfl, rfl, rfl, rfl, rfl, rfl⟩

/-- Counterexample to C5 as stated. A pool of one worker reaches `Demo.shut`,
where the flag is set and the queue is empty. A call of `submit` there returns
the future 1, whose shared state is pending, and the queue holds the new
task. -/
theorem submit_accepted_after_shutdown :
    run (Demo.mem 0) Demo.shutActs (init 1) = some Demo.shut ∧
    Demo.shut.is_shut_down = true ∧ Demo.shut.que.que = [] ∧
    (Demo.shut.submit Demo.ident 0 [7]).2 = 1 ∧
    (Demo.shut.submit Demo.ident 0 [7]).1.que.que = [some 1] ∧
    ((Demo.shut.submit Demo.ident 0 [7]).1.heap[1]?).map (fun pt => pt.state.get) =
      some none :=
  ⟨rfl, rfl, rfl, rfl, rfl, rfl⟩

/-- Claim C5, as amended. `submit` does not look at the shutdown flag: in
every state, with the flag set or clear, it allocates the task, appends it to
the queue and returns the future on its pending shared state; it changes
nothing else and has no error result. -/
theorem submit_ignores_flag (s : ThreadPool V E) (code : V → List V → Except E V)
    (f : Nat) (args : List V) :
    (s.submit code f args).2 = s.heap.length ∧
    (s.submit code f args).1.que.que = s.que.que ++ [some s.heap.length] ∧
    (s.submit code f args).1.heap = s.heap ++ [⟨⟨code, f, args⟩, .pending⟩] ∧
    (s.submit code f args).1.heap[(s.submit code f args).2]? =
      some ⟨⟨code, f, args⟩, .pending⟩ ∧
    (s.submit code f args).1.is_shut_down = s.is_shut_down ∧
    (s.submit code f args).1.threads = s.threads ∧
    (s.submit code f args).1.owner = s.owner ∧
    (s.submit code f args).1.executed = s.executed := by
  refine ⟨rfl, rfl, rfl, ?_, rfl, rfl, rfl, rfl⟩
  simp [submit]

/-- Claim C9, the code at a failing input. The callable `Adder{1}` at address
0 is submitted with the argument 5; `f(args)` is 6 at that time. The caller
then sets the member `k` to 2, and the worker runs the task in that memory:
the future holds 7. The task read the caller's object when it ran. -/
theorem callable_read_when_run :
    Bound.call (Demo.mem 1) ⟨Demo.adder, 0, [5]⟩ = .ok 6 ∧
    run (Demo.mem 2) (Demo.turn 0) ((Demo.pool 1).submit Demo.adder 0 [5]).1 =
      some (Demo.after 2 (Demo.turn 0) ((Demo.pool 1).submit Demo.adder 0 [5]).1) ∧
    ((Demo.after 2 (Demo.turn 0) ((Demo.pool 1).submit Demo.adder 0 [5]).1).heap[0]?).map
      (fun pt => pt.state.get) = some (some (.ok 7)) :=
  ⟨rfl, rfl, rfl⟩

end ThreadPool

end ThreadPoolSpec
